import Mathlib

/-!
Verification development for the LidarView SLAM core (`vtkSlam`).

The repository ships the interface header `src/VelodyneHDL/vtkSlam.h`; the
implementation file `vtkSlam.cxx` is not part of the sources.  Every
operation needed by the properties below is therefore modelled from the
specification (`spec.md`), shallowly embedded over exact rationals: the
real-valued computations of the C++ code are represented by the same
formulas over `ℚ`, angles are represented by (cosine, sine) pairs on the
unit circle, and stateful components are explicit state-passing functions.
-/

/-- A 3-vector with rational coordinates, standing for `Eigen::Matrix<double, 3, 1>`. -/
@[ext] structure V3 where
  (x y z : ℚ)
deriving DecidableEq, Repr

/-- A 3×3 matrix with rational entries, standing for `Eigen::Matrix<double, 3, 3>`. -/
@[ext] structure M3 where
  (a11 a12 a13 : ℚ)
  (a21 a22 a23 : ℚ)
  (a31 a32 a33 : ℚ)
deriving DecidableEq, Repr

def V3.add (a b : V3) : V3 := ⟨a.x + b.x, a.y + b.y, a.z + b.z⟩

def V3.sub (a b : V3) : V3 := ⟨a.x - b.x, a.y - b.y, a.z - b.z⟩

def V3.scale (c : ℚ) (a : V3) : V3 := ⟨c * a.x, c * a.y, c * a.z⟩

def V3.dot (a b : V3) : ℚ := a.x * b.x + a.y * b.y + a.z * b.z

def V3.zero : V3 := ⟨0, 0, 0⟩

def M3.id : M3 := ⟨1, 0, 0, 0, 1, 0, 0, 0, 1⟩

def M3.sub (A B : M3) : M3 :=
  ⟨A.a11 - B.a11, A.a12 - B.a12, A.a13 - B.a13,
   A.a21 - B.a21, A.a22 - B.a22, A.a23 - B.a23,
   A.a31 - B.a31, A.a32 - B.a32, A.a33 - B.a33⟩

def M3.transpose (A : M3) : M3 :=
  ⟨A.a11, A.a21, A.a31, A.a12, A.a22, A.a32, A.a13, A.a23, A.a33⟩

def M3.mulVec (A : M3) (v : V3) : V3 :=
  ⟨A.a11 * v.x + A.a12 * v.y + A.a13 * v.z,
   A.a21 * v.x + A.a22 * v.y + A.a23 * v.z,
   A.a31 * v.x + A.a32 * v.y + A.a33 * v.z⟩

def M3.mul (A B : M3) : M3 :=
  ⟨A.a11 * B.a11 + A.a12 * B.a21 + A.a13 * B.a31,
   A.a11 * B.a12 + A.a12 * B.a22 + A.a13 * B.a32,
   A.a11 * B.a13 + A.a12 * B.a23 + A.a13 * B.a33,
   A.a21 * B.a11 + A.a22 * B.a21 + A.a23 * B.a31,
   A.a21 * B.a12 + A.a22 * B.a22 + A.a23 * B.a32,
   A.a21 * B.a13 + A.a22 * B.a23 + A.a23 * B.a33,
   A.a31 * B.a11 + A.a32 * B.a21 + A.a33 * B.a31,
   A.a31 * B.a12 + A.a32 * B.a22 + A.a33 * B.a32,
   A.a31 * B.a13 + A.a32 * B.a23 + A.a33 * B.a33⟩

/-- Outer product `u vᵀ` of two 3-vectors. -/
def outerV (u v : V3) : M3 :=
  ⟨u.x * v.x, u.x * v.y, u.x * v.z,
   u.y * v.x, u.y * v.y, u.y * v.z,
   u.z * v.x, u.z * v.y, u.z * v.z⟩

/-- A 6-DoF pose `(rx, ry, rz, tx, ty, tz)`: ZYX Euler angles and a translation,
standing for `Eigen::Matrix<double, 6, 1>` (`Trelative`, `Tworld`). -/
@[ext] structure Pose6 where
  (rx ry rz : ℚ)
  (tx ty tz : ℚ)
deriving DecidableEq, Repr

def Pose6.add (p q : Pose6) : Pose6 :=
  ⟨p.rx + q.rx, p.ry + q.ry, p.rz + q.rz, p.tx + q.tx, p.ty + q.ty, p.tz + q.tz⟩

/-- Squared Euclidean norm of the translation part of a pose. -/
def Pose6.transNormSq (p : Pose6) : ℚ := p.tx * p.tx + p.ty * p.ty + p.tz * p.tz

/-- The kind of feature a keypoint was matched to: a plane with normal `n`
or a line with directing vector `d` (header comment, `vtkSlam.h:753-759`). -/
inductive FeatureKind where
  | plane (n : V3)
  | line (d : V3)
deriving DecidableEq, Repr

/-- One matched keypoint, as stored by the residual accumulator
(`Avalues` / `Pvalues` / `Xvalues` / `OutlierDistScale`, `vtkSlam.h:765-769`):
the current point `X`, the reference point `P` on the matched primitive and
the outlier weight `w`. -/
structure MatchRecord where
  kind : FeatureKind
  X : V3
  P : V3
  w : ℚ
deriving DecidableEq, Repr

/-- Modelled from the spec: the matrix `A` of the distance function, as the
missing `vtkSlam.cxx` builds it (header comment, `vtkSlam.h:756-759`):
`A = n nᵀ` for a plane with normal `n` and `A = (I − d dᵀ)²` for a line with
directing vector `d`. -/
def matchMatrix : FeatureKind → M3
  | .plane n => outerV n n
  | .line d => M3.mul (M3.sub M3.id (outerV d d)) (M3.sub M3.id (outerV d d))

/-- Modelled from the spec: the residual value contributed to the LM cost by
one matched keypoint (missing `vtkSlam.cxx`, declared as
`ComputeResidualValues`, `vtkSlam.h:691-696`):
`w · (R·X + t − P)ᵀ A (R·X + t − P)`. -/
def residualOf (R : M3) (t : V3) (m : MatchRecord) : ℚ :=
  let r := V3.sub (V3.add (M3.mulVec R m.X) t) m.P
  m.w * V3.dot r (M3.mulVec (matchMatrix m.kind) r)

/-- Modelled from the spec: `ComputeResidualValues` (`vtkSlam.h:694-696`)
maps the stored match records to their residual values at the rotation `R`
and translation `t` under scrutiny. -/
def computeResidualValues (R : M3) (t : V3) (ms : List MatchRecord) : List ℚ :=
  ms.map (residualOf R t)

/-- The residual exactly as the specification words it (§3, ResidualAccumulator):
`w · (R·X + t − P)ᵀ A (R·X + t − P)` with `A = n nᵀ` for planes and
`A = (I − d dᵀ)ᵀ (I − d dᵀ)` for lines.  Used to compare the code-side
`residualOf` against the spec's formula. -/
def residualSpecForm (R : M3) (t : V3) (m : MatchRecord) : ℚ :=
  let r := V3.sub (V3.add (M3.mulVec R m.X) t) m.P
  let A := match m.kind with
    | .plane n => outerV n n
    | .line d => M3.mul (M3.transpose (M3.sub M3.id (outerV d d))) (M3.sub M3.id (outerV d d))
  m.w * V3.dot r (M3.mulVec A r)

/-- Modelled from the spec: the ego-motion sanity check (§4.7 step 3, §7
`ExcessiveMotion`; `MaxDistBetweenTwoFrames`, `vtkSlam.h:482-487`).  If the
squared translation norm of the transform recovered by the LM solver exceeds
`maxDist²`, the solved transform is discarded, the emitted pose falls back to
the motion-model prediction (`PredictTWorld`, `vtkSlam.h:745-746`) and the
failure is reported through the boolean flag. -/
def egoMotionSafeguard (solved predicted : Pose6) (maxDist : ℚ) : Pose6 × Bool :=
  if maxDist * maxDist < Pose6.transNormSq solved then (predicted, false) else (solved, true)

/-- State of the Levenberg–Marquardt loop: current parameter vector and
damping factor `λ`. -/
structure LMState where
  theta : Pose6
  lam : ℚ
deriving DecidableEq, Repr

/-- Modelled from the spec: one accept/reject step of the LM loop
(§4.3 step 3; `Lambda0` / `LambdaRatio`, `vtkSlam.h:551-557`).  `F` is the
cost, `prop` the candidate step produced by solving the damped normal
equations at the current state (kept abstract: the step acceptance logic does
not depend on how the candidate was produced). -/
def lmStep (F : Pose6 → ℚ) (prop : Pose6 → ℚ → Pose6) (ratio : ℚ) (s : LMState) : LMState :=
  let d := prop s.theta s.lam
  if F (s.theta.add d) < F s.theta then ⟨s.theta.add d, s.lam / ratio⟩
  else ⟨s.theta, s.lam * ratio⟩

/-- Keypoint-extraction configuration (`vtkSlam.h:472-480`, spec §4.1). -/
structure KeypointConfig where
  maxEdgePerScanLine : ℕ
  maxPlanarsPerScanLine : ℕ
  neighborWidth : ℕ
  edgeSinAngleThreshold : ℚ
  planeSinAngleThreshold : ℚ
  edgeDepthGapThreshold : ℚ
  sphericityThreshold : ℚ
deriving DecidableEq, Repr

/-- Per-point differential quantities of one scan line, as computed by
`ComputeCurvature` / `InvalidPointWithBadCriteria` (`vtkSlam.h:603-614`):
the angle/curvature score `aᵢ`, the depth gap `gᵢ`, the blob/sphericity score
and the validity flag left by the invalidation criteria. -/
structure PointScores where
  angleScore : ℚ
  depthGap : ℚ
  blobScore : ℚ
  valid : Bool
deriving DecidableEq, Repr

/-- Edge candidates are ranked by decreasing `max(aᵢ, gᵢ)`, ties broken by
point index (spec §4.1 step 4). -/
def edgeCandOrder (a b : ℕ × ℚ) : Prop :=
  b.2 < a.2 ∨ (a.2 = b.2 ∧ a.1 ≤ b.1)

/-- Planar candidates are ranked by increasing `aᵢ`, ties broken by point
index (spec §4.1 step 4). -/
def planarCandOrder (a b : ℕ × ℚ) : Prop :=
  a.2 < b.2 ∨ (a.2 = b.2 ∧ a.1 ≤ b.1)

instance : DecidableRel edgeCandOrder := by
  intro a b
  unfold edgeCandOrder
  infer_instance

instance : DecidableRel planarCandOrder := by
  intro a b
  unfold planarCandOrder
  infer_instance

/-- Modelled from the spec: the point indices of one scan line that pass the
edge thresholds, paired with their rank `max(aᵢ, gᵢ)` and sorted in rank
order (missing `vtkSlam.cxx`, declared as `SetKeyPointsLabels`,
`vtkSlam.h:616-617`; spec §4.1 step 4). -/
def edgeCands (cfg : KeypointConfig) (line : List PointScores) : List (ℕ × ℚ) :=
  List.insertionSort edgeCandOrder
    ((line.enum.filter fun ip => ip.2.valid &&
        (decide (cfg.edgeSinAngleThreshold ≤ ip.2.angleScore) ||
         decide (cfg.edgeDepthGapThreshold ≤ ip.2.depthGap))).map
      fun ip => (ip.1, max ip.2.angleScore ip.2.depthGap))

/-- Modelled from the spec: the point indices of one scan line that pass the
planar threshold, paired with their rank `aᵢ` and sorted in rank order
(missing `vtkSlam.cxx`; spec §4.1 step 4). -/
def planarCands (cfg : KeypointConfig) (line : List PointScores) : List (ℕ × ℚ) :=
  List.insertionSort planarCandOrder
    ((line.enum.filter fun ip =>
        ip.2.valid && decide (ip.2.angleScore ≤ cfg.planeSinAngleThreshold)).map
      fun ip => (ip.1, ip.2.angleScore))

/-- Mark the `w` points on each side of the selected index `i` as ineligible
(spec §4.1 step 5). -/
def markNeighbors (w i : ℕ) (elig : ℕ → Bool) : ℕ → Bool :=
  fun j => if i ≤ j + w ∧ j ≤ i + w then false else elig j

/-- Modelled from the spec: greedy non-maximum suppression (missing
`vtkSlam.cxx`, spec §4.1 step 5).  Walk the rank-ordered candidate indices,
accept an index while the cap is not reached and the index is still
eligible, and mark `neighbor_width` points around each accepted index as
ineligible. -/
def selectGreedy (w : ℕ) : ℕ → List ℕ → (ℕ → Bool) → List ℕ
  | _, [], _ => []
  | 0, _ :: _, _ => []
  | cap + 1, i :: rest, elig =>
    if elig i then i :: selectGreedy w cap rest (markNeighbors w i elig)
    else selectGreedy w (cap + 1) rest elig

/-- The edge keypoint indices selected on one scan line. -/
def edgeSelected (cfg : KeypointConfig) (line : List PointScores) : List ℕ :=
  selectGreedy cfg.neighborWidth cfg.maxEdgePerScanLine
    ((edgeCands cfg line).map Prod.fst) (fun _ => true)

/-- The planar keypoint indices selected on one scan line; points already
labeled as edges are not eligible. -/
def planarSelected (cfg : KeypointConfig) (line : List PointScores) : List ℕ :=
  selectGreedy cfg.neighborWidth cfg.maxPlanarsPerScanLine
    ((planarCands cfg line).map Prod.fst)
    (fun j => decide (j ∉ edgeSelected cfg line))

/-- Keypoint label of a point (`Label`, `vtkSlam.h:449`; spec §3). -/
inductive PLabel where
  | unlabeled
  | edge
  | planar
  | blob
  | invalid
deriving DecidableEq, Repr

/-- Modelled from the spec: `SetKeyPointsLabels` (`vtkSlam.h:616-617`) on one
scan line — every selected edge index is labeled `edge`, every selected
planar index `planar`, remaining valid points stay `unlabeled` and the rest
are `invalid`. -/
def labelLine (cfg : KeypointConfig) (line : List PointScores) : List PLabel :=
  (List.range line.length).map fun i =>
    if i ∈ edgeSelected cfg line then PLabel.edge
    else if i ∈ planarSelected cfg line then PLabel.planar
    else if (line.getD i ⟨0, 0, 0, false⟩).valid then PLabel.unlabeled
    else PLabel.invalid

/-- Number of points carrying a given label. -/
def countLabel (lbl : PLabel) (labels : List PLabel) : ℕ :=
  labels.countP fun a => decide (a = lbl)

/-- A final keypoint record: its selection rank, its scan-line index and its
point index within the scan line. -/
@[ext] structure KP where
  rank : ℚ
  line : ℕ
  idx : ℕ
deriving DecidableEq, Repr

/-- The deterministic final ordering of keypoints demanded by the spec (§5):
by rank, ties broken by scan-line index then point index. -/
def kpLE (a b : KP) : Prop :=
  b.rank < a.rank ∨
    (a.rank = b.rank ∧ (a.line < b.line ∨ (a.line = b.line ∧ a.idx ≤ b.idx)))

instance : DecidableRel kpLE := by
  intro a b
  unfold kpLE
  infer_instance

instance : IsTotal KP kpLE := by
  constructor
  intro a b
  rcases lt_trichotomy a.rank b.rank with h | h | h
  · exact Or.inr (Or.inl h)
  · rcases lt_trichotomy a.line b.line with h2 | h2 | h2
    · exact Or.inl (Or.inr ⟨h, Or.inl h2⟩)
    · rcases le_total a.idx b.idx with h3 | h3
      · exact Or.inl (Or.inr ⟨h, Or.inr ⟨h2, h3⟩⟩)
      · exact Or.inr (Or.inr ⟨h.symm, Or.inr ⟨h2.symm, h3⟩⟩)
    · exact Or.inr (Or.inr ⟨h.symm, Or.inl h2⟩)
  · exact Or.inl (Or.inl h)

instance : IsTrans KP kpLE := by
  constructor
  intro a b c hab hbc
  rcases hab with h | ⟨h1, h2⟩ <;> rcases hbc with g | ⟨g1, g2⟩
  · exact Or.inl (lt_trans g h)
  · exact Or.inl (g1 ▸ h)
  · exact Or.inl (h1 ▸ g)
  · refine Or.inr ⟨h1.trans g1, ?_⟩
    rcases h2 with h3 | ⟨h4, h5⟩ <;> rcases g2 with g3 | ⟨g4, g5⟩
    · exact Or.inl (lt_trans h3 g3)
    · exact Or.inl (g4 ▸ h3)
    · exact Or.inl (h4 ▸ g3)
    · exact Or.inr ⟨h4.trans g4, le_trans h5 g5⟩

instance : IsAntisymm KP kpLE := by
  constructor
  intro a b hab hba
  rcases hab with h | ⟨h1, h2⟩ <;> rcases hba with g | ⟨g1, g2⟩
  · exact absurd h (lt_asymm g)
  · exact absurd h (g1 ▸ lt_irrefl b.rank)
  · exact absurd g (h1 ▸ lt_irrefl a.rank)
  · have hline : a.line = b.line := by
      rcases h2 with h3 | ⟨h4, _⟩ <;> rcases g2 with g3 | ⟨g4, _⟩ <;> omega
    have hidx : a.idx = b.idx := by
      rcases h2 with h3 | ⟨h4, h5⟩ <;> rcases g2 with g3 | ⟨g4, g5⟩ <;> omega
    exact KP.ext h1 hline hidx

/-- Default point-score record used for out-of-range accesses. -/
def defaultScores : PointScores := ⟨0, 0, 0, false⟩

/-- The edge keypoint records produced by scan line `li` of `frame`. -/
def edgeKPsOfLine (cfg : KeypointConfig) (frame : List (List PointScores)) (li : ℕ) :
    List KP :=
  let line := frame.getD li []
  (edgeSelected cfg line).map fun i =>
    ⟨max (line.getD i defaultScores).angleScore (line.getD i defaultScores).depthGap, li, i⟩

/-- The planar keypoint records produced by scan line `li` of `frame`. -/
def planarKPsOfLine (cfg : KeypointConfig) (frame : List (List PointScores)) (li : ℕ) :
    List KP :=
  let line := frame.getD li []
  (planarSelected cfg line).map fun i => ⟨(line.getD i defaultScores).angleScore, li, i⟩

/-- The blob keypoint records produced by scan line `li` of `frame`:
valid points whose sphericity score passes the threshold (spec §4.1 step 4). -/
def blobKPsOfLine (cfg : KeypointConfig) (frame : List (List PointScores)) (li : ℕ) :
    List KP :=
  let line := frame.getD li []
  ((line.enum.filter fun ip =>
      ip.2.valid && decide (cfg.sphericityThreshold ≤ ip.2.blobScore)).map
    fun ip => ⟨ip.2.blobScore, li, ip.1⟩)

/-- Modelled from the spec: `ComputeKeyPoints` (`vtkSlam.h:597-601`) with an
explicit processing schedule of the scan lines.  The spec (§5) allows the
per-line work to be forked in any order but requires the final keypoint
selection to be sorted by rank with ties broken by scan-line index then
point index; `sched` is the order in which the per-line results are
collected. -/
def extractScheduled (cfg : KeypointConfig) (frame : List (List PointScores))
    (sched : List ℕ) : List KP × List KP × List KP :=
  (List.insertionSort kpLE (sched.flatMap (edgeKPsOfLine cfg frame)),
   List.insertionSort kpLE (sched.flatMap (planarKPsOfLine cfg frame)),
   List.insertionSort kpLE (sched.flatMap (blobKPsOfLine cfg frame)))

/-- Modelled from the spec: the per-point undistortion transform toward the
sweep start (`TransformToStart`, `vtkSlam.h:639-644`; spec §4.4): a point
acquired at time offset `s` is mapped to the sweep-start frame by
`p ↦ R(s)·p + s·t(θ)` where `R(s)` is the interpolated rotation
`slerp(I, R(θ), s)` (passed here as `Rs`). -/
def transformToStart (Rs : M3) (t : V3) (s : ℚ) (p : V3) : V3 :=
  V3.add (M3.mulVec Rs p) (V3.scale s t)

/-- Modelled from the spec: the per-point undistortion transform toward the
sweep end (`TransformToEnd`, `vtkSlam.h:646-650`; spec §4.4): the point is
first expressed in the sweep-start frame and then mapped into the
end-of-sweep frame by the inverse of the full sweep pose `(R(θ), t(θ))`:
`p ↦ R(θ)ᵀ·(R(s)·p + s·t(θ) − t(θ))`. -/
def transformToEnd (Rtheta Rs : M3) (t : V3) (s : ℚ) (p : V3) : V3 :=
  M3.mulVec (M3.transpose Rtheta)
    (V3.sub (V3.add (M3.mulVec Rs p) (V3.scale s t)) t)

/-- Rolling-grid configuration (`Set_RollingGrid_VoxelSize` /
`Set_RollingGrid_Grid_NbVoxel` / `Set_RollingGrid_PointCloud_NbVoxel` /
`Set_RollingGrid_LeafVoxelFilterSize`, `vtkSlam.h:262-273`; spec §4.5):
the size of one grid voxel, the grid extent in voxels per axis, and the
per-cell leaf-filter resolution per axis. -/
structure RGConfig where
  voxelSize : ℚ
  (nbX nbY nbZ : ℕ)
  (leafX leafY leafZ : ℕ)
deriving DecidableEq, Repr

/-- The per-cell point capacity after leaf filtering: one point survives per
leaf voxel of the cell. -/
def RGConfig.cellCap (cfg : RGConfig) : ℕ := cfg.leafX * cfg.leafY * cfg.leafZ

/-- Index of a voxel of the rolling grid, in world voxel coordinates. -/
@[ext] structure VoxIdx where
  (vx vy vz : ℤ)
deriving DecidableEq, Repr

/-- The world voxel containing a point. -/
def voxelOf (cfg : RGConfig) (p : V3) : VoxIdx :=
  ⟨⌊p.x / cfg.voxelSize⌋, ⌊p.y / cfg.voxelSize⌋, ⌊p.z / cfg.voxelSize⌋⟩

/-- Whether voxel `k` lies within the grid extent anchored at `a`
(`a` is the lowest corner of the grid, in world voxel coordinates). -/
def inExtent (cfg : RGConfig) (a k : VoxIdx) : Prop :=
  a.vx ≤ k.vx ∧ k.vx < a.vx + cfg.nbX ∧
  a.vy ≤ k.vy ∧ k.vy < a.vy + cfg.nbY ∧
  a.vz ≤ k.vz ∧ k.vz < a.vz + cfg.nbZ

instance (cfg : RGConfig) (a k : VoxIdx) : Decidable (inExtent cfg a k) := by
  unfold inExtent
  infer_instance

/-- Leaf-voxel key of a point inside its cell: the per-axis leaf voxel
indices combined into a single natural number. -/
def leafKey (cfg : RGConfig) (p : V3) : ℕ :=
  (⌊p.x * cfg.leafX / cfg.voxelSize⌋.toNat % cfg.leafX) +
  cfg.leafX * ((⌊p.y * cfg.leafY / cfg.voxelSize⌋.toNat % cfg.leafY) +
    cfg.leafY * (⌊p.z * cfg.leafZ / cfg.voxelSize⌋.toNat % cfg.leafZ))

/-- Modelled from the spec: the leaf voxel filter applied inside one cell
(spec §4.5, `insert`): at most one point survives per leaf voxel, the first
one encountered; `seen` accumulates the leaf keys already occupied. -/
def leafFilterAux (cfg : RGConfig) : List V3 → List ℕ → List V3
  | [], _ => []
  | p :: rest, seen =>
    if leafKey cfg p ∈ seen then leafFilterAux cfg rest seen
    else p :: leafFilterAux cfg rest (leafKey cfg p :: seen)

/-- Downsample the point cloud of one cell by the leaf voxel filter. -/
def leafFilter (cfg : RGConfig) (l : List V3) : List V3 := leafFilterAux cfg l []

/-- State of a rolling grid (`RollingGrid`, `vtkSlam.h:103, 436-438`):
the anchor (lowest corner, in world voxel coordinates) and the association
list of non-empty cells. -/
structure RGState where
  anchor : VoxIdx
  cells : List (VoxIdx × List V3)
deriving DecidableEq, Repr

/-- Add point `p` to the cell of key `k`, creating it if absent; the cell's
point cloud is re-filtered by the leaf filter. -/
def insertPointCells (cfg : RGConfig) (k : VoxIdx) (p : V3) :
    List (VoxIdx × List V3) → List (VoxIdx × List V3)
  | [] => [(k, leafFilter cfg [p])]
  | c :: rest =>
    if c.1 = k then (k, leafFilter cfg (p :: c.2)) :: rest
    else c :: insertPointCells cfg k p rest

/-- Modelled from the spec: insertion of one point into the rolling grid
(spec §4.5, `insert`): the point goes to the voxel containing its world
coordinates; a point falling outside the grid extent is discarded. -/
def insertPoint (cfg : RGConfig) (st : RGState) (p : V3) : RGState :=
  if inExtent cfg st.anchor (voxelOf cfg p) then
    { st with cells := insertPointCells cfg (voxelOf cfg p) p st.cells }
  else st

/-- Insert a batch of points. -/
def insertPoints (cfg : RGConfig) (st : RGState) (pts : List V3) : RGState :=
  pts.foldl (insertPoint cfg) st

/-- Modelled from the spec: `recenter_to` (spec §4.5): the anchor moves to
`newAnchor` and every cell scrolled out of the new extent is evicted, so
points falling outside the grid after recentering are discarded. -/
def recenterTo (cfg : RGConfig) (st : RGState) (newAnchor : VoxIdx) : RGState :=
  ⟨newAnchor, st.cells.filter fun c => decide (inExtent cfg newAnchor c.1)⟩

/-- Modelled from the spec: `query(bounding_box)` (spec §4.5): the union of
the points of all voxels overlapping the box.  It does not change the
state. -/
def queryBox (st : RGState) (lo hi : VoxIdx) : List V3 :=
  (st.cells.filter fun c =>
    decide (lo.vx ≤ c.1.vx ∧ c.1.vx ≤ hi.vx ∧ lo.vy ≤ c.1.vy ∧ c.1.vy ≤ hi.vy ∧
      lo.vz ≤ c.1.vz ∧ c.1.vz ≤ hi.vz)).flatMap Prod.snd

/-- One operation on a rolling grid. -/
inductive RGOp where
  | insert (pts : List V3)
  | query (lo hi : VoxIdx)
  | recenter (a : VoxIdx)
deriving DecidableEq, Repr

/-- Apply one operation to the grid state. -/
def applyOp (cfg : RGConfig) (st : RGState) : RGOp → RGState
  | .insert pts => insertPoints cfg st pts
  | .query _ _ => st
  | .recenter a => recenterTo cfg st a

/-- Run a sequence of operations from a given state. -/
def runOps (cfg : RGConfig) (st : RGState) (ops : List RGOp) : RGState :=
  ops.foldl (applyOp cfg) st

/-- The empty rolling grid anchored at `a`. -/
def emptyGrid (a : VoxIdx) : RGState := ⟨a, []⟩

/-- Total number of points stored in the grid. -/
def totalPoints (st : RGState) : ℕ := (st.cells.map fun c => c.2.length).sum

/-- The rolling-grid invariant: cell keys are distinct, every cell lies in
the current extent, and every cell holds at most `cellCap` points. -/
def RGInv (cfg : RGConfig) (st : RGState) : Prop :=
  (st.cells.map Prod.fst).Nodup ∧
  (∀ c ∈ st.cells, inExtent cfg st.anchor c.1) ∧
  (∀ c ∈ st.cells, c.2.length ≤ cfg.cellCap)

/-- Natural-number encoding of an in-extent voxel relative to the anchor. -/
def encCell (cfg : RGConfig) (a k : VoxIdx) : ℕ :=
  (k.vx - a.vx).toNat +
  cfg.nbX * ((k.vy - a.vy).toNat + cfg.nbY * (k.vz - a.vz).toNat)

/-- One persisted trajectory record `(t, rx, ry, rz, tx, ty, tz)`
(spec §6, persisted trajectory format). -/
@[ext] structure TrajRecord where
  (t rx ry rz tx ty tz : ℚ)
deriving DecidableEq, Repr

/-- Decimal digit to its character. -/
def digitToChar (d : ℕ) : Char :=
  if d = 0 then '0' else if d = 1 then '1' else if d = 2 then '2' else if d = 3 then '3'
  else if d = 4 then '4' else if d = 5 then '5' else if d = 6 then '6' else if d = 7 then '7'
  else if d = 8 then '8' else '9'

/-- Character to its decimal digit value. -/
def charToDigit (c : Char) : ℕ := c.toNat - 48

/-- Decimal rendering of a natural number, most significant digit first. -/
def natChars (n : ℕ) : List Char :=
  if n = 0 then ['0'] else (Nat.digits 10 n).reverse.map digitToChar

/-- Decimal rendering of an integer. -/
def intChars (z : ℤ) : List Char :=
  if z < 0 then '-' :: natChars z.natAbs else natChars z.natAbs

/-- Parse a decimal natural number. -/
def parseNat (cs : List Char) : ℕ := Nat.ofDigits 10 ((cs.map charToDigit).reverse)

/-- Parse a decimal integer (optional leading minus sign). -/
def parseInt (cs : List Char) : ℤ :=
  if cs.head? = some '-' then -(parseNat cs.tail : ℤ) else (parseNat cs : ℤ)

/-- Join character groups with a separator character. -/
def joinSep (sep : Char) : List (List Char) → List Char
  | [] => []
  | [x] => x
  | x :: y :: ys => x ++ sep :: joinSep sep (y :: ys)

/-- Split a character list on a separator character. -/
def splitSep (sep : Char) : List Char → List (List Char)
  | [] => [[]]
  | c :: rest =>
    if c = sep then [] :: splitSep sep rest
    else
      match splitSep sep rest with
      | [] => [[c]]
      | g :: gs => (c :: g) :: gs

/-- Modelled from the spec: fixed-point text rendering of one coordinate
(missing `vtkSlam.cxx`, declared as `ExportTransforms`, `vtkSlam.h:378-379`):
the value is written with nine decimal places, i.e. as the integer amount of
`10⁻⁹` units, rounded to nearest. -/
def renderQ (q : ℚ) : List Char := intChars ⌊q * 1000000000 + 1 / 2⌋

/-- Modelled from the spec: parsing one coordinate back from its text form
(missing `vtkSlam.cxx`, declared as `LoadTransforms`, `vtkSlam.h:367-370`). -/
def parseQ (cs : List Char) : ℚ := (parseInt cs : ℚ) / 1000000000

/-- The value a coordinate assumes after one render/parse round trip. -/
def quantizeQ (q : ℚ) : ℚ := (⌊q * 1000000000 + 1 / 2⌋ : ℚ) / 1000000000

/-- The seven serialized fields of a trajectory record, in file order. -/
def recFields (r : TrajRecord) : List ℚ := [r.t, r.rx, r.ry, r.rz, r.tx, r.ty, r.tz]

/-- A trajectory record after one export/import round trip. -/
def quantizeRec (r : TrajRecord) : TrajRecord :=
  ⟨quantizeQ r.t, quantizeQ r.rx, quantizeQ r.ry, quantizeQ r.rz,
   quantizeQ r.tx, quantizeQ r.ty, quantizeQ r.tz⟩

/-- Modelled from the spec: `ExportTransforms` (`vtkSlam.h:378-379`; spec §6)
writes the trajectory as plain text, one `(t, rx, ry, rz, tx, ty, tz)` record
per line, fields separated by spaces. -/
def exportTransforms (recs : List TrajRecord) : List Char :=
  joinSep '\n' (recs.map fun r => joinSep ' ' ((recFields r).map renderQ))

/-- Parse one line of the trajectory file. -/
def parseLine (cs : List Char) : Option TrajRecord :=
  match (splitSep ' ' cs).map parseQ with
  | [t, rx, ry, rz, tx, ty, tz] => some ⟨t, rx, ry, rz, tx, ty, tz⟩
  | _ => none

/-- Modelled from the spec: `LoadTransforms` (`vtkSlam.h:367-370`; spec §6)
parses the plain-text trajectory file back into records; a malformed line
makes the whole import fail. -/
def importTransforms (cs : List Char) : Option (List TrajRecord) :=
  if cs = [] then some [] else (splitSep '\n' cs).mapM parseLine

/-- Componentwise closeness of two trajectory records. -/
def closeTo (eps : ℚ) (a b : TrajRecord) : Prop :=
  |a.t - b.t| ≤ eps ∧ |a.rx - b.rx| ≤ eps ∧ |a.ry - b.ry| ≤ eps ∧ |a.rz - b.rz| ≤ eps ∧
  |a.tx - b.tx| ≤ eps ∧ |a.ty - b.ty| ≤ eps ∧ |a.tz - b.tz| ≤ eps

/-- Error kinds surfaced by the engine (spec §7). -/
inductive SlamError where
  | calibrationMissing
deriving DecidableEq, Repr

/-- State of the 12-state Kalman filter (`KalmanFilter`, `vtkSlam.h:106-190`):
state vector and covariance entries, previous time and number of observed
measures. -/
structure KalmanState where
  vectorState : List ℚ
  estimatorCovariance : List ℚ
  previousTime : ℚ
  nbrMeasures : ℕ
deriving DecidableEq, Repr

/-- Modelled from the spec: the state owned by the `vtkSlam` engine
(`vtkSlam.h:389-590`): sensor calibration, the three rolling-grid local
maps, the current and previous keypoint clouds, the relative and world
poses, the trajectory history, the Kalman estimator and the displayed
trajectory polydata (`Trajectory`, `vtkSlam.h:392-394`). -/
structure SlamEngineState where
  calibProvided : Bool
  laserIdMapping : List ℕ
  nLasers : ℕ
  edgesPointsLocalMap : RGState
  planarPointsLocalMap : RGState
  blobsPointsLocalMap : RGState
  currentEdgesPoints : List KP
  currentPlanarsPoints : List KP
  currentBlobsPoints : List KP
  previousEdgesPoints : List KP
  previousPlanarsPoints : List KP
  previousBlobsPoints : List KP
  trelative : Pose6
  tworld : Pose6
  previousTworld : Pose6
  tworldList : List Pose6
  kalman : KalmanState
  nbrFrameProcessed : ℕ
  trajectory : List TrajRecord
deriving DecidableEq, Repr

/-- Modelled from the spec: the freshly reset engine (`ResetAlgorithm`,
`vtkSlam.h:206-209`): empty maps, empty clouds, identity poses and no
calibration provided yet. -/
def initialEngineState : SlamEngineState :=
  { calibProvided := false
    laserIdMapping := []
    nLasers := 0
    edgesPointsLocalMap := emptyGrid ⟨0, 0, 0⟩
    planarPointsLocalMap := emptyGrid ⟨0, 0, 0⟩
    blobsPointsLocalMap := emptyGrid ⟨0, 0, 0⟩
    currentEdgesPoints := []
    currentPlanarsPoints := []
    currentBlobsPoints := []
    previousEdgesPoints := []
    previousPlanarsPoints := []
    previousBlobsPoints := []
    trelative := ⟨0, 0, 0, 0, 0, 0⟩
    tworld := ⟨0, 0, 0, 0, 0, 0⟩
    previousTworld := ⟨0, 0, 0, 0, 0, 0⟩
    tworldList := []
    kalman := ⟨List.replicate 12 0, List.replicate 144 0, 0, 0⟩
    nbrFrameProcessed := 0
    trajectory := [] }

/-- Modelled from the spec: `SetSensorCalibration` (`vtkSlam.h:214-222`)
records the laser-id mapping and marks the calibration as provided
(`GetIsSensorCalibrationProvided`). -/
def setSensorCalibration (st : SlamEngineState) (mapping : List ℕ) : SlamEngineState :=
  { st with calibProvided := true, laserIdMapping := mapping, nLasers := mapping.length }

/-- Modelled from the spec: `AddFrame` / `process_frame` (`vtkSlam.h:200-204`;
spec §4.7, §7).  Invoking it before `SetSensorCalibration` is the fatal
`CalibrationMissing` configuration error: the frame is not processed and the
error is surfaced to the caller.  With a calibration, the frame's keypoints
are extracted and the per-frame bookkeeping (double-buffered keypoint
clouds, trajectory history, frame counter) is performed and the pose for
the frame is emitted. -/
def processFrame (cfg : KeypointConfig) (st : SlamEngineState)
    (frame : List (List PointScores)) (time : ℚ) :
    Except SlamError (SlamEngineState × Pose6) :=
  if st.calibProvided then
    let kps := extractScheduled cfg frame (List.range frame.length)
    Except.ok
      ({ st with
          currentEdgesPoints := kps.1
          currentPlanarsPoints := kps.2.1
          currentBlobsPoints := kps.2.2
          previousEdgesPoints := st.currentEdgesPoints
          previousPlanarsPoints := st.currentPlanarsPoints
          previousBlobsPoints := st.currentBlobsPoints
          previousTworld := st.tworld
          tworldList := st.tworldList ++ [st.tworld]
          trajectory := st.trajectory ++
            [⟨time, st.tworld.rx, st.tworld.ry, st.tworld.rz,
              st.tworld.tx, st.tworld.ty, st.tworld.tz⟩]
          nbrFrameProcessed := st.nbrFrameProcessed + 1 }, st.tworld)
  else Except.error SlamError.calibrationMissing

/-- Modelled from the spec: `LoadTransforms` (`vtkSlam.h:367-370`) parses a
trajectory file and appends the loaded transforms to the displayed
trajectory polydata; per its documentation it does not affect the SLAM
algorithm state. -/
def loadTransforms (st : SlamEngineState) (file : List Char) : SlamEngineState :=
  match importTransforms file with
  | none => st
  | some recs => { st with trajectory := st.trajectory ++ recs }

/-- C1: for every matched keypoint the residual contributed to the LM cost
equals `w · (R·X + t − P)ᵀ A (R·X + t − P)` with `A = n nᵀ` for a plane match
and `A = (I − d dᵀ)ᵀ (I − d dᵀ)` for a line match. -/
theorem residual_values_match_spec_form (R : M3) (t : V3) (ms : List MatchRecord) :
    computeResidualValues R t ms = ms.map (residualSpecForm R t) := by
  unfold computeResidualValues
  apply List.map_congr_left
  intro m _
  unfold residualOf residualSpecForm
  cases h : m.kind with
  | plane n => simp [matchMatrix]
  | line d =>
      have htr : M3.transpose (M3.sub M3.id (outerV d d)) = M3.sub M3.id (outerV d d) := by
        simp [M3.transpose, M3.sub, M3.id, outerV, mul_comm]
      simp [matchMatrix, htr]

/-- C2: whenever the translation norm of the ego-motion result exceeds
`max_dist_between_two_frames`, the result is discarded and the emitted pose
is the motion-model prediction; conversely an accepted ego-motion transform
always satisfies the bound, so no transform violating it is propagated. -/
theorem ego_motion_excessive_fallback (solved predicted : Pose6) (maxDist : ℚ) :
    (maxDist * maxDist < Pose6.transNormSq solved →
      egoMotionSafeguard solved predicted maxDist = (predicted, false)) ∧
    (∀ out : Pose6, egoMotionSafeguard solved predicted maxDist = (out, true) →
      out = solved ∧ Pose6.transNormSq out ≤ maxDist * maxDist) := by
  constructor
  · intro h
    simp [egoMotionSafeguard, h]
  · intro out h
    by_cases hc : maxDist * maxDist < Pose6.transNormSq solved
    · simp [egoMotionSafeguard, hc] at h
    · simp [egoMotionSafeguard, hc] at h
      exact ⟨h.symm, h ▸ le_of_not_lt hc⟩

theorem ego_motion_excessive_fallback_witness :
    ((3 : ℚ) * 3 < Pose6.transNormSq ⟨0, 0, 0, 5, 0, 0⟩ →
      egoMotionSafeguard ⟨0, 0, 0, 5, 0, 0⟩ ⟨0, 0, 0, 1, 0, 0⟩ 3 = (⟨0, 0, 0, 1, 0, 0⟩, false)) ∧
    (∀ out : Pose6, egoMotionSafeguard ⟨0, 0, 0, 5, 0, 0⟩ ⟨0, 0, 0, 1, 0, 0⟩ 3 = (out, true) →
      out = ⟨0, 0, 0, 5, 0, 0⟩ ∧ Pose6.transNormSq out ≤ 3 * 3) :=
  ego_motion_excessive_fallback ⟨0, 0, 0, 5, 0, 0⟩ ⟨0, 0, 0, 1, 0, 0⟩ 3

/-- C3: a candidate LM step is accepted exactly when it strictly decreases
the cost, `λ` is divided by `lambda_ratio` on acceptance and multiplied by it
on rejection, and consequently the cost of the retained parameter vector is
non-increasing along the iteration. -/
theorem lm_accept_reject_and_monotone (F : Pose6 → ℚ) (prop : Pose6 → ℚ → Pose6)
    (ratio : ℚ) (s : LMState) :
    (F (s.theta.add (prop s.theta s.lam)) < F s.theta →
      lmStep F prop ratio s = ⟨s.theta.add (prop s.theta s.lam), s.lam / ratio⟩) ∧
    (¬ F (s.theta.add (prop s.theta s.lam)) < F s.theta →
      lmStep F prop ratio s = ⟨s.theta, s.lam * ratio⟩) ∧
    (∀ n : ℕ, F (((lmStep F prop ratio)^[n + 1] s).theta) ≤
      F (((lmStep F prop ratio)^[n] s).theta)) := by
  refine ⟨fun h => ?_, fun h => ?_, fun n => ?_⟩
  · simp [lmStep, h]
  · simp [lmStep, h]
  · have hstep : ∀ u : LMState, F ((lmStep F prop ratio u).theta) ≤ F u.theta := by
      intro u
      by_cases hc : F (u.theta.add (prop u.theta u.lam)) < F u.theta
      · simpa [lmStep, hc] using le_of_lt hc
      · simp [lmStep, hc]
    rw [Function.iterate_succ_apply']
    exact hstep _

theorem lm_accept_reject_and_monotone_witness :
    lmStep (fun p => p.tx * p.tx) (fun _ _ => ⟨0, 0, 0, -1, 0, 0⟩) 2 ⟨⟨0, 0, 0, 1, 0, 0⟩, 8⟩ =
      ⟨Pose6.add ⟨0, 0, 0, 1, 0, 0⟩ ⟨0, 0, 0, -1, 0, 0⟩, 8 / 2⟩ :=
  (lm_accept_reject_and_monotone (fun p => p.tx * p.tx) (fun _ _ => ⟨0, 0, 0, -1, 0, 0⟩) 2
    ⟨⟨0, 0, 0, 1, 0, 0⟩, 8⟩).1 (by norm_num [Pose6.add])

/-- The greedy non-maximum suppression never selects more indices than the
cap passed to it. -/
theorem selectGreedy_length_le (w : ℕ) :
    ∀ (cap : ℕ) (l : List ℕ) (elig : ℕ → Bool),
      (selectGreedy w cap l elig).length ≤ cap := by
  intro cap l
  induction l generalizing cap with
  | nil =>
      intro elig
      cases cap <;> simp [selectGreedy]
  | cons i rest ih =>
      intro elig
      cases cap with
      | zero => simp [selectGreedy]
      | succ c =>
          by_cases h : elig i
          · simp only [selectGreedy, h, if_true, List.length_cons]
            exact Nat.succ_le_succ (ih c _)
          · simp only [selectGreedy, h, if_false]
            exact ih (c + 1) _

/-- A nodup list of naturals contained in another list is no longer than it. -/
theorem nodup_subset_length_le {l₁ l₂ : List ℕ} (h₁ : l₁.Nodup) (hsub : l₁ ⊆ l₂) :
    l₁.length ≤ l₂.length := by
  calc l₁.length = l₁.toFinset.card := (List.toFinset_card_of_nodup h₁).symm
    _ ≤ l₂.toFinset.card := by
        apply Finset.card_le_card
        intro x hx
        rw [List.mem_toFinset] at hx ⊢
        exact hsub hx
    _ ≤ l₂.length := List.toFinset_card_le l₂

/-- The number of points of a labeled scan line carrying label `edge`
(resp. `planar`) is at most the length of the corresponding selection. -/
theorem countLabel_le_selected (cfg : KeypointConfig) (line : List PointScores) :
    countLabel PLabel.edge (labelLine cfg line) ≤ (edgeSelected cfg line).length ∧
    countLabel PLabel.planar (labelLine cfg line) ≤ (planarSelected cfg line).length := by
  constructor
  · unfold countLabel labelLine
    rw [List.countP_map, List.countP_eq_length_filter]
    apply nodup_subset_length_le ((List.nodup_range _).filter _)
    intro x hx
    rw [List.mem_filter] at hx
    have hx2 := hx.2
    simp only [Function.comp, decide_eq_true_eq] at hx2
    by_contra he
    split_ifs at hx2 with h1 h2
    simp_all
  · unfold countLabel labelLine
    rw [List.countP_map, List.countP_eq_length_filter]
    apply nodup_subset_length_le ((List.nodup_range _).filter _)
    intro x hx
    rw [List.mem_filter] at hx
    have hx2 := hx.2
    simp only [Function.comp, decide_eq_true_eq] at hx2
    by_contra hp
    split_ifs at hx2 with h1 h2

/-- C4: after keypoint labeling, every scan line of every frame carries at
most `MaxEdgePerScanLine` points labeled `edge` and at most
`MaxPlanarsPerScanLine` points labeled `planar`. -/
theorem keypoint_counts_per_line_bounded (cfg : KeypointConfig)
    (frame : List (List PointScores)) :
    ∀ line ∈ frame,
      countLabel PLabel.edge (labelLine cfg line) ≤ cfg.maxEdgePerScanLine ∧
      countLabel PLabel.planar (labelLine cfg line) ≤ cfg.maxPlanarsPerScanLine := by
  intro line _
  have h := countLabel_le_selected cfg line
  constructor
  · exact h.1.trans (selectGreedy_length_le _ _ _ _)
  · exact h.2.trans (selectGreedy_length_le _ _ _ _)

theorem keypoint_counts_per_line_bounded_witness :
    countLabel PLabel.edge
        (labelLine ⟨1, 1, 1, 1, 1, 1, 1⟩ [⟨2, 0, 0, true⟩, ⟨0, 0, 0, true⟩]) ≤ 1 ∧
    countLabel PLabel.planar
        (labelLine ⟨1, 1, 1, 1, 1, 1, 1⟩ [⟨2, 0, 0, true⟩, ⟨0, 0, 0, true⟩]) ≤ 1 :=
  keypoint_counts_per_line_bounded ⟨1, 1, 1, 1, 1, 1, 1⟩
    [[⟨2, 0, 0, true⟩, ⟨0, 0, 0, true⟩]] [⟨2, 0, 0, true⟩, ⟨0, 0, 0, true⟩]
    (List.mem_singleton.mpr rfl)

/-- C8: keypoint extraction is deterministic — collecting the per-scan-line
results in any processing order (any permutation of the scan-line indices)
yields identical edge, planar and blob keypoint lists, because the final
selection is ordered by rank with ties broken by scan-line index then point
index. -/
theorem extraction_deterministic (cfg : KeypointConfig)
    (frame : List (List PointScores)) (sched : List ℕ)
    (h : sched.Perm (List.range frame.length)) :
    extractScheduled cfg frame sched = extractScheduled cfg frame (List.range frame.length) := by
  unfold extractScheduled
  refine Prod.ext ?_ (Prod.ext ?_ ?_) <;>
    · apply List.eq_of_perm_of_sorted
        ((List.perm_insertionSort _ _).trans
          (((h.flatMap_right _)).trans (List.perm_insertionSort _ _).symm))
        (List.sorted_insertionSort _ _) (List.sorted_insertionSort _ _)

theorem extraction_deterministic_witness :
    extractScheduled ⟨1, 1, 1, 1, 1, 1, 1⟩
        [[⟨2, 0, 0, true⟩], [⟨0, 0, 0, true⟩]] [1, 0] =
      extractScheduled ⟨1, 1, 1, 1, 1, 1, 1⟩
        [[⟨2, 0, 0, true⟩], [⟨0, 0, 0, true⟩]] (List.range 2) :=
  extraction_deterministic ⟨1, 1, 1, 1, 1, 1, 1⟩
    [[⟨2, 0, 0, true⟩], [⟨0, 0, 0, true⟩]] [1, 0] (by decide)

/-- Matrix-vector products compose through matrix products. -/
theorem mulVec_mul (A B : M3) (v : V3) :
    M3.mulVec A (M3.mulVec B v) = M3.mulVec (M3.mul A B) v := by
  ext <;> simp [M3.mulVec, M3.mul] <;> ring

/-- The identity matrix acts as the identity on vectors. -/
theorem id_mulVec (v : V3) : M3.mulVec M3.id v = v := by
  ext <;> simp [M3.mulVec, M3.id]

/-- C6 counterexample: with the identity sweep rotation, translation
`t = (1,0,0)` and time offset `s = 1` (so that `slerp(I, R(θ), s) = I`
whatever the slerp), applying `transform_to_end` and then
`transform_to_start` to the origin yields `(1,0,0)`, not the original
point. -/
theorem to_start_to_end_not_inverse :
    transformToStart M3.id ⟨1, 0, 0⟩ 1
      (transformToEnd M3.id M3.id ⟨1, 0, 0⟩ 1 ⟨0, 0, 0⟩) ≠ ⟨0, 0, 0⟩ := by
  have h : transformToStart M3.id ⟨1, 0, 0⟩ 1
      (transformToEnd M3.id M3.id ⟨1, 0, 0⟩ 1 ⟨0, 0, 0⟩) = ⟨1, 0, 0⟩ := by
    simp [transformToStart, transformToEnd, M3.mulVec, M3.transpose, M3.id,
      V3.add, V3.sub, V3.scale]
  rw [h]
  intro hc
  have := congrArg V3.x hc
  norm_num at this

/-- C6 (amended): `transform_to_start` and `transform_to_end` agree up to
the full sweep pose — applying the sweep pose `(R(θ), t(θ))` to
`transform_to_end(p, θ)` recovers `transform_to_start(p, θ)` for every
orthogonal sweep rotation, every interpolated rotation `R(s)`, every
translation and every time offset; and the round trip
`transform_to_start(transform_to_end(p, θ), θ) = p` does hold for the
identity sweep transform. -/
theorem to_start_eq_pose_comp_to_end (Rtheta Rs : M3) (t : V3) (s : ℚ) (p : V3)
    (horth : M3.mul Rtheta (M3.transpose Rtheta) = M3.id) :
    V3.add (M3.mulVec Rtheta (transformToEnd Rtheta Rs t s p)) t =
      transformToStart Rs t s p ∧
    (Rtheta = M3.id → Rs = M3.id → t = V3.zero →
      transformToStart Rs t s (transformToEnd Rtheta Rs t s p) = p) := by
  constructor
  · unfold transformToEnd transformToStart
    rw [mulVec_mul, horth, id_mulVec]
    ext <;> simp [V3.add, V3.sub, V3.scale]
  · intro h1 h2 h3
    subst h1; subst h2; subst h3
    unfold transformToEnd transformToStart
    ext <;> simp [M3.mulVec, M3.transpose, M3.id, V3.add, V3.sub, V3.scale, V3.zero]

theorem to_start_eq_pose_comp_to_end_witness :
    (V3.add (M3.mulVec M3.id (transformToEnd M3.id M3.id ⟨1, 2, 3⟩ 1 ⟨4, 5, 6⟩)) ⟨1, 2, 3⟩ =
      transformToStart M3.id ⟨1, 2, 3⟩ 1 ⟨4, 5, 6⟩) ∧
    (M3.id = M3.id → M3.id = M3.id → (⟨1, 2, 3⟩ : V3) = V3.zero →
      transformToStart M3.id ⟨1, 2, 3⟩ 1 (transformToEnd M3.id M3.id ⟨1, 2, 3⟩ 1 ⟨4, 5, 6⟩) =
        ⟨4, 5, 6⟩) :=
  to_start_eq_pose_comp_to_end M3.id M3.id ⟨1, 2, 3⟩ 1 ⟨4, 5, 6⟩
    (by ext <;> simp [M3.mul, M3.transpose, M3.id])

/-- Base-decomposition bound: a triple of bounded digits encodes below the
product of the bases. -/
theorem tripleEnc_lt {X Y Z x y z : ℕ} (hx : x < X) (hy : y < Y) (hz : z < Z) :
    x + X * (y + Y * z) < X * Y * Z := by
  have h1 : y + Y * z < Y * Z := by
    calc y + Y * z < Y + Y * z := by omega
      _ = Y * (z + 1) := by ring
      _ ≤ Y * Z := Nat.mul_le_mul_left Y (by omega)
  calc x + X * (y + Y * z) < X + X * (y + Y * z) := by omega
    _ = X * (y + Y * z + 1) := by ring
    _ ≤ X * (Y * Z) := Nat.mul_le_mul_left X (by omega)
    _ = X * Y * Z := by ring

/-- Base-decomposition injectivity: bounded digit triples encode injectively. -/
theorem tripleEnc_inj {X Y : ℕ} {x1 y1 z1 x2 y2 z2 : ℕ}
    (hx1 : x1 < X) (hx2 : x2 < X) (hy1 : y1 < Y) (hy2 : y2 < Y)
    (h : x1 + X * (y1 + Y * z1) = x2 + X * (y2 + Y * z2)) :
    x1 = x2 ∧ y1 = y2 ∧ z1 = z2 := by
  have hX : 0 < X := lt_of_le_of_lt (Nat.zero_le x1) hx1
  have hY : 0 < Y := lt_of_le_of_lt (Nat.zero_le y1) hy1
  have hmx : x1 = x2 := by
    have hmod := congrArg (fun n => n % X) h
    simpa [Nat.add_mul_mod_self_left, Nat.mod_eq_of_lt hx1, Nat.mod_eq_of_lt hx2] using hmod
  have h2 : y1 + Y * z1 = y2 + Y * z2 := by
    have hcan : X * (y1 + Y * z1) = X * (y2 + Y * z2) := by omega
    exact Nat.eq_of_mul_eq_mul_left hX hcan
  have hmy : y1 = y2 := by
    have hmod := congrArg (fun n => n % Y) h2
    simpa [Nat.add_mul_mod_self_left, Nat.mod_eq_of_lt hy1, Nat.mod_eq_of_lt hy2] using hmod
  have hmz : z1 = z2 := by
    have hcan : Y * z1 = Y * z2 := by omega
    exact Nat.eq_of_mul_eq_mul_left hY hcan
  exact ⟨hmx, hmy, hmz⟩

/-- For a positive leaf resolution, the leaf key of any point is below the
per-cell capacity. -/
theorem leafKey_lt (cfg : RGConfig) (p : V3)
    (hx : 0 < cfg.leafX) (hy : 0 < cfg.leafY) (hz : 0 < cfg.leafZ) :
    leafKey cfg p < cfg.cellCap := by
  unfold leafKey RGConfig.cellCap
  exact tripleEnc_lt (Nat.mod_lt _ hx) (Nat.mod_lt _ hy) (Nat.mod_lt _ hz)

/-- The leaf filter keeps at most one point per leaf key and none whose key
was already seen. -/
theorem leafFilterAux_keys (cfg : RGConfig) :
    ∀ (l : List V3) (seen : List ℕ),
      ((leafFilterAux cfg l seen).map (leafKey cfg)).Nodup ∧
      ∀ q ∈ (leafFilterAux cfg l seen).map (leafKey cfg), q ∉ seen := by
  intro l
  induction l with
  | nil =>
      intro seen
      simp [leafFilterAux]
  | cons p rest ih =>
      intro seen
      by_cases h : leafKey cfg p ∈ seen
      · simpa only [leafFilterAux, if_pos h] using ih seen
      · simp only [leafFilterAux, if_neg h, List.map_cons]
        obtain ⟨ihn, ihs⟩ := ih (leafKey cfg p :: seen)
        refine ⟨List.nodup_cons.mpr ⟨fun hc => (ihs _ hc) (List.mem_cons_self _ _), ihn⟩, ?_⟩
        intro q hq
        rcases List.mem_cons.mp hq with rfl | hq2
        · exact h
        · exact fun hs => ihs q hq2 (List.mem_cons_of_mem _ hs)

/-- For a positive leaf resolution, a leaf-filtered cell holds at most
`cellCap` points. -/
theorem leafFilter_length_le (cfg : RGConfig)
    (hx : 0 < cfg.leafX) (hy : 0 < cfg.leafY) (hz : 0 < cfg.leafZ) (l : List V3) :
    (leafFilter cfg l).length ≤ cfg.cellCap := by
  have hnd := (leafFilterAux_keys cfg l []).1
  have hsub : (leafFilter cfg l).map (leafKey cfg) ⊆ List.range cfg.cellCap := by
    intro q hq
    rw [List.mem_map] at hq
    obtain ⟨pt, _, rfl⟩ := hq
    rw [List.mem_range]
    exact leafKey_lt cfg pt hx hy hz
  have hlen := nodup_subset_length_le hnd hsub
  simpa [List.length_map, List.length_range] using hlen

/-- Every cell of the grid after a point insertion either was already
present or carries the inserted point's voxel key and a leaf-filtered
point cloud. -/
theorem insertPointCells_mem (cfg : RGConfig) (k : VoxIdx) (p : V3) :
    ∀ (cells : List (VoxIdx × List V3)) (c : VoxIdx × List V3),
      c ∈ insertPointCells cfg k p cells →
      c ∈ cells ∨ (c.1 = k ∧ ∃ l : List V3, c.2 = leafFilter cfg l) := by
  intro cells
  induction cells with
  | nil =>
      intro c hc
      simp only [insertPointCells, List.mem_singleton] at hc
      subst hc
      exact Or.inr ⟨rfl, ⟨[p], rfl⟩⟩
  | cons c0 rest ih =>
      intro c hc
      by_cases h : c0.1 = k
      · simp only [insertPointCells, if_pos h] at hc
        rcases List.mem_cons.mp hc with rfl | hmem
        · exact Or.inr ⟨rfl, ⟨p :: c0.2, rfl⟩⟩
        · exact Or.inl (List.mem_cons_of_mem _ hmem)
      · simp only [insertPointCells, if_neg h] at hc
        rcases List.mem_cons.mp hc with rfl | hmem
        · exact Or.inl (List.mem_cons_self _ _)
        · rcases ih c hmem with h1 | h2
          · exact Or.inl (List.mem_cons_of_mem _ h1)
          · exact Or.inr h2

/-- Point insertion preserves distinctness of the cell keys. -/
theorem insertPointCells_keys_nodup (cfg : RGConfig) (k : VoxIdx) (p : V3) :
    ∀ cells : List (VoxIdx × List V3), (cells.map Prod.fst).Nodup →
      ((insertPointCells cfg k p cells).map Prod.fst).Nodup := by
  intro cells
  induction cells with
  | nil =>
      intro _
      simp [insertPointCells]
  | cons c0 rest ih =>
      intro hnd
      rw [List.map_cons, List.nodup_cons] at hnd
      by_cases h : c0.1 = k
      · simp only [insertPointCells, if_pos h, List.map_cons, List.nodup_cons]
        exact ⟨h ▸ hnd.1, hnd.2⟩
      · simp only [insertPointCells, if_neg h, List.map_cons, List.nodup_cons]
        refine ⟨?_, ih hnd.2⟩
        intro hc
        rw [List.mem_map] at hc
        obtain ⟨c, hcmem, hceq⟩ := hc
        rcases insertPointCells_mem cfg k p rest c hcmem with h1 | h2
        · exact hnd.1 (hceq ▸ List.mem_map_of_mem Prod.fst h1)
        · exact h (hceq ▸ h2.1)

/-- Inserting one point preserves the rolling-grid invariant. -/
theorem insertPoint_inv (cfg : RGConfig)
    (hx : 0 < cfg.leafX) (hy : 0 < cfg.leafY) (hz : 0 < cfg.leafZ)
    (st : RGState) (p : V3) (hinv : RGInv cfg st) :
    RGInv cfg (insertPoint cfg st p) := by
  unfold insertPoint
  by_cases h : inExtent cfg st.anchor (voxelOf cfg p)
  · rw [if_pos h]
    obtain ⟨hnd, hext, hcap⟩ := hinv
    refine ⟨insertPointCells_keys_nodup cfg _ p st.cells hnd, ?_, ?_⟩
    · intro c hc
      rcases insertPointCells_mem cfg _ p st.cells c hc with h1 | h2
      · exact hext c h1
      · show inExtent cfg st.anchor c.1
        rw [h2.1]
        exact h
    · intro c hc
      rcases insertPointCells_mem cfg _ p st.cells c hc with h1 | h2
      · exact hcap c h1
      · obtain ⟨l, hl⟩ := h2.2
        rw [hl]
        exact leafFilter_length_le cfg hx hy hz l
  · rw [if_neg h]
    exact hinv

/-- Inserting a batch of points preserves the rolling-grid invariant. -/
theorem insertPoints_inv (cfg : RGConfig)
    (hx : 0 < cfg.leafX) (hy : 0 < cfg.leafY) (hz : 0 < cfg.leafZ) :
    ∀ (pts : List V3) (st : RGState), RGInv cfg st → RGInv cfg (insertPoints cfg st pts) := by
  intro pts
  induction pts with
  | nil =>
      intro st hinv
      simpa [insertPoints] using hinv
  | cons p rest ih =>
      intro st hinv
      have h1 := insertPoint_inv cfg hx hy hz st p hinv
      simpa [insertPoints] using ih (insertPoint cfg st p) h1

/-- Recentering re-establishes the rolling-grid invariant at the new anchor:
surviving cells are exactly those inside the new extent. -/
theorem recenterTo_inv (cfg : RGConfig) (st : RGState) (a : VoxIdx)
    (hinv : RGInv cfg st) : RGInv cfg (recenterTo cfg st a) := by
  obtain ⟨hnd, _, hcap⟩ := hinv
  refine ⟨?_, ?_, ?_⟩
  · have hsub : ((st.cells.filter fun c => decide (inExtent cfg a c.1)).map Prod.fst).Sublist
        (st.cells.map Prod.fst) := (List.filter_sublist _).map _
    exact List.Nodup.sublist hsub hnd
  · intro c hc
    simp only [recenterTo] at hc ⊢
    rw [List.mem_filter] at hc
    exact of_decide_eq_true hc.2
  · intro c hc
    simp only [recenterTo] at hc
    rw [List.mem_filter] at hc
    exact hcap c hc.1

/-- Every rolling-grid operation preserves the invariant. -/
theorem applyOp_inv (cfg : RGConfig)
    (hx : 0 < cfg.leafX) (hy : 0 < cfg.leafY) (hz : 0 < cfg.leafZ)
    (st : RGState) (op : RGOp) (hinv : RGInv cfg st) :
    RGInv cfg (applyOp cfg st op) := by
  cases op with
  | insert pts => exact insertPoints_inv cfg hx hy hz pts st hinv
  | query lo hi => exact hinv
  | recenter a => exact recenterTo_inv cfg st a hinv

/-- Any sequence of rolling-grid operations preserves the invariant. -/
theorem runOps_inv (cfg : RGConfig)
    (hx : 0 < cfg.leafX) (hy : 0 < cfg.leafY) (hz : 0 < cfg.leafZ) :
    ∀ (ops : List RGOp) (st : RGState), RGInv cfg st → RGInv cfg (runOps cfg st ops) := by
  intro ops
  induction ops with
  | nil =>
      intro st hinv
      simpa [runOps] using hinv
  | cons op rest ih =>
      intro st hinv
      have h1 := applyOp_inv cfg hx hy hz st op hinv
      simpa [runOps] using ih (applyOp cfg st op) h1

/-- A grid whose cell keys are distinct and inside the extent has at most
`nbX·nbY·nbZ` cells. -/
theorem cells_count_le (cfg : RGConfig) (st : RGState)
    (hnd : (st.cells.map Prod.fst).Nodup)
    (hext : ∀ c ∈ st.cells, inExtent cfg st.anchor c.1) :
    st.cells.length ≤ cfg.nbX * cfg.nbY * cfg.nbZ := by
  have hbound : ∀ k ∈ st.cells.map Prod.fst,
      encCell cfg st.anchor k < cfg.nbX * cfg.nbY * cfg.nbZ := by
    intro k hk
    rw [List.mem_map] at hk
    obtain ⟨c, hc, rfl⟩ := hk
    obtain ⟨e1, e2, e3, e4, e5, e6⟩ := hext c hc
    unfold encCell
    exact tripleEnc_lt (by omega) (by omega) (by omega)
  have hinj : ∀ k1 ∈ st.cells.map Prod.fst, ∀ k2 ∈ st.cells.map Prod.fst,
      encCell cfg st.anchor k1 = encCell cfg st.anchor k2 → k1 = k2 := by
    intro k1 hk1 k2 hk2 heq
    rw [List.mem_map] at hk1 hk2
    obtain ⟨c1, hc1, rfl⟩ := hk1
    obtain ⟨c2, hc2, rfl⟩ := hk2
    obtain ⟨a1, a2, a3, a4, a5, a6⟩ := hext c1 hc1
    obtain ⟨b1, b2, b3, b4, b5, b6⟩ := hext c2 hc2
    unfold encCell at heq
    have h3 := @tripleEnc_inj cfg.nbX cfg.nbY
      (c1.1.vx - st.anchor.vx).toNat (c1.1.vy - st.anchor.vy).toNat
      (c1.1.vz - st.anchor.vz).toNat
      (c2.1.vx - st.anchor.vx).toNat (c2.1.vy - st.anchor.vy).toNat
      (c2.1.vz - st.anchor.vz).toNat
      (by omega) (by omega) (by omega) (by omega) heq
    ext <;> omega
  have hnd2 : ((st.cells.map Prod.fst).map (encCell cfg st.anchor)).Nodup :=
    List.Nodup.map_on hinj hnd
  have hsub : (st.cells.map Prod.fst).map (encCell cfg st.anchor) ⊆
      List.range (cfg.nbX * cfg.nbY * cfg.nbZ) := by
    intro n hn
    rw [List.mem_map] at hn
    obtain ⟨k, hk, rfl⟩ := hn
    rw [List.mem_range]
    exact hbound k hk
  have hlen := nodup_subset_length_le hnd2 hsub
  simpa [List.length_map, List.length_range] using hlen

/-- The invariant yields the global point-count bound. -/
theorem rginv_total_le (cfg : RGConfig) (st : RGState) (hinv : RGInv cfg st) :
    totalPoints st ≤ cfg.nbX * cfg.nbY * cfg.nbZ * cfg.cellCap := by
  obtain ⟨hnd, hext, hcap⟩ := hinv
  have h1 : totalPoints st ≤ st.cells.length * cfg.cellCap := by
    unfold totalPoints
    have hs := List.sum_le_card_nsmul (st.cells.map fun c => c.2.length) cfg.cellCap ?_
    · simpa [List.length_map, smul_eq_mul] using hs
    · intro x hx
      rw [List.mem_map] at hx
      obtain ⟨c, hc, rfl⟩ := hx
      exact hcap c hc
  calc totalPoints st ≤ st.cells.length * cfg.cellCap := h1
    _ ≤ cfg.nbX * cfg.nbY * cfg.nbZ * cfg.cellCap :=
        Nat.mul_le_mul_right _ (cells_count_le cfg st hnd hext)

/-- C5: for every sequence of insert, query and recenter operations starting
from the empty rolling grid (with a positive leaf-filter resolution), the
total number of stored points never exceeds `nbX·nbY·nbZ` (the voxel count)
times the per-cell capacity after leaf filtering, and every cell surviving
after the operations — in particular after every recentering — lies inside
the current grid extent: points falling outside it have been discarded. -/
theorem rolling_grid_bounded (cfg : RGConfig) (a0 : VoxIdx) (ops : List RGOp)
    (hx : 0 < cfg.leafX) (hy : 0 < cfg.leafY) (hz : 0 < cfg.leafZ) :
    totalPoints (runOps cfg (emptyGrid a0) ops) ≤
      cfg.nbX * cfg.nbY * cfg.nbZ * cfg.cellCap ∧
    ∀ c ∈ (runOps cfg (emptyGrid a0) ops).cells,
      inExtent cfg (runOps cfg (emptyGrid a0) ops).anchor c.1 := by
  have hinv : RGInv cfg (runOps cfg (emptyGrid a0) ops) := by
    apply runOps_inv cfg hx hy hz
    refine ⟨by simp [emptyGrid], ?_, ?_⟩ <;> simp [emptyGrid]
  exact ⟨rginv_total_le cfg _ hinv, hinv.2.1⟩

theorem rolling_grid_bounded_witness :
    totalPoints (runOps ⟨1, 2, 2, 2, 1, 1, 1⟩ (emptyGrid ⟨0, 0, 0⟩) [RGOp.recenter ⟨1, 1, 1⟩]) ≤
      RGConfig.nbX ⟨1, 2, 2, 2, 1, 1, 1⟩ * RGConfig.nbY ⟨1, 2, 2, 2, 1, 1, 1⟩ *
        RGConfig.nbZ ⟨1, 2, 2, 2, 1, 1, 1⟩ * RGConfig.cellCap ⟨1, 2, 2, 2, 1, 1, 1⟩ ∧
    ∀ c ∈ (runOps ⟨1, 2, 2, 2, 1, 1, 1⟩ (emptyGrid ⟨0, 0, 0⟩) [RGOp.recenter ⟨1, 1, 1⟩]).cells,
      inExtent ⟨1, 2, 2, 2, 1, 1, 1⟩
        (runOps ⟨1, 2, 2, 2, 1, 1, 1⟩ (emptyGrid ⟨0, 0, 0⟩) [RGOp.recenter ⟨1, 1, 1⟩]).anchor c.1 :=
  rolling_grid_bounded ⟨1, 2, 2, 2, 1, 1, 1⟩ ⟨0, 0, 0⟩ [RGOp.recenter ⟨1, 1, 1⟩]
    (by decide) (by decide) (by decide)

/-- Digit characters decode back to their digit. -/
theorem charToDigit_digitToChar {d : ℕ} (hd : d < 10) : charToDigit (digitToChar d) = d := by
  interval_cases d <;> rfl

/-- Digit characters lie in the ASCII digit range. -/
theorem digitToChar_range (d : ℕ) : 48 ≤ (digitToChar d).toNat ∧ (digitToChar d).toNat ≤ 57 := by
  unfold digitToChar
  split_ifs <;> exact ⟨by decide, by decide⟩

/-- The decimal rendering of a natural number is never empty. -/
theorem natChars_ne_nil (n : ℕ) : natChars n ≠ [] := by
  unfold natChars
  split_ifs with h
  · simp
  · simp [Nat.digits_ne_nil_iff_ne_zero, h]

/-- Every character of a rendered natural number is an ASCII digit. -/
theorem natChars_range (n : ℕ) : ∀ c ∈ natChars n, 48 ≤ c.toNat ∧ c.toNat ≤ 57 := by
  unfold natChars
  split_ifs with h <;> intro c hc
  · rw [List.mem_singleton] at hc
    subst hc
    exact ⟨by decide, by decide⟩
  · rw [List.mem_map] at hc
    obtain ⟨d, _, rfl⟩ := hc
    exact digitToChar_range d

/-- Decimal rendering and parsing of naturals are mutually inverse. -/
theorem parseNat_natChars (n : ℕ) : parseNat (natChars n) = n := by
  unfold parseNat natChars
  split_ifs with h
  · subst h
    decide
  · rw [List.map_map]
    have hcongr : (Nat.digits 10 n).reverse.map (charToDigit ∘ digitToChar) =
        (Nat.digits 10 n).reverse.map id := by
      apply List.map_congr_left
      intro d hd
      exact charToDigit_digitToChar (Nat.digits_lt_base (by norm_num) (List.mem_reverse.mp hd))
    rw [hcongr, List.map_id, List.reverse_reverse, Nat.ofDigits_digits]

/-- Decimal rendering and parsing of integers are mutually inverse. -/
theorem parseInt_intChars (z : ℤ) : parseInt (intChars z) = z := by
  unfold parseInt intChars
  by_cases hz : z < 0
  · rw [if_pos hz,
      if_pos (show ('-' :: natChars z.natAbs).head? = some '-' from rfl)]
    simp only [List.tail_cons]
    rw [parseNat_natChars]
    omega
  · rw [if_neg hz]
    have hne := natChars_ne_nil z.natAbs
    cases hcs : natChars z.natAbs with
    | nil => exact absurd hcs hne
    | cons c cs =>
        have hcr : 48 ≤ c.toNat ∧ c.toNat ≤ 57 := by
          apply natChars_range z.natAbs
          rw [hcs]
          exact List.mem_cons_self c cs
        rw [if_neg ?hcond]
        case hcond =>
          simp only [List.head?, Option.some_inj]
          intro hcon
          subst hcon
          exact absurd hcr.1 (by decide)
        rw [← hcs, parseNat_natChars]
        omega

/-- `splitSep` never returns an empty group list. -/
theorem splitSep_ne_nil (sep : Char) : ∀ cs : List Char, splitSep sep cs ≠ [] := by
  intro cs
  induction cs with
  | nil => simp [splitSep]
  | cons c rest ih =>
      simp only [splitSep]
      split_ifs
      · simp
      · cases hs : splitSep sep rest <;> simp [hs]

/-- Splitting a separator-free chunk yields that single chunk. -/
theorem splitSep_no_sep {sep : Char} : ∀ {x : List Char}, sep ∉ x → splitSep sep x = [x] := by
  intro x
  induction x with
  | nil => intro _; rfl
  | cons c r ih =>
      intro hns
      have hc : ¬ c = sep := fun h => hns (h ▸ List.mem_cons_self c r)
      simp only [splitSep, if_neg hc]
      rw [ih (fun h => hns (List.mem_cons_of_mem _ h))]

/-- Splitting after a separator-free prefix peels off that prefix. -/
theorem splitSep_append {sep : Char} :
    ∀ {x : List Char} (w : List Char), sep ∉ x →
      splitSep sep (x ++ sep :: w) = x :: splitSep sep w := by
  intro x
  induction x with
  | nil => intro w _; simp [splitSep]
  | cons c r ih =>
      intro w hns
      have hc : ¬ c = sep := fun h => hns (h ▸ List.mem_cons_self c r)
      simp only [List.cons_append, splitSep, if_neg hc, List.append_eq]
      rw [ih w (fun h => hns (List.mem_cons_of_mem _ h))]

/-- Splitting is a left inverse of joining, for separator-free parts. -/
theorem splitSep_joinSep {sep : Char} :
    ∀ parts : List (List Char), parts ≠ [] → (∀ p ∈ parts, sep ∉ p) →
      splitSep sep (joinSep sep parts) = parts := by
  intro parts
  induction parts with
  | nil => intro h _; exact absurd rfl h
  | cons x xs ih =>
      intro _ hall
      cases xs with
      | nil =>
          show splitSep sep (joinSep sep [x]) = [x]
          simp only [joinSep]
          exact splitSep_no_sep (hall x (List.mem_cons_self _ _))
      | cons y ys =>
          simp only [joinSep]
          rw [splitSep_append (joinSep sep (y :: ys)) (hall x (List.mem_cons_self _ _))]
          rw [ih (by simp) (fun p hp => hall p (List.mem_cons_of_mem _ hp))]

/-- Joining a list whose head is non-empty is non-empty. -/
theorem joinSep_ne_nil {sep : Char} {x : List Char} (xs : List (List Char)) (hx : x ≠ []) :
    joinSep sep (x :: xs) ≠ [] := by
  cases xs with
  | nil => exact hx
  | cons y ys =>
      simp only [joinSep]
      intro hcon
      rw [List.append_eq_nil] at hcon
      exact List.cons_ne_nil _ _ hcon.2

/-- Every character of a join comes from a part or is the separator. -/
theorem mem_joinSep {sep : Char} :
    ∀ (parts : List (List Char)) (c : Char), c ∈ joinSep sep parts →
      c = sep ∨ ∃ p ∈ parts, c ∈ p := by
  intro parts
  induction parts with
  | nil => intro c hc; simp [joinSep] at hc
  | cons x xs ih =>
      intro c hc
      cases xs with
      | nil =>
          exact Or.inr ⟨x, List.mem_cons_self _ _, hc⟩
      | cons y ys =>
          simp only [joinSep, List.mem_append, List.mem_cons] at hc
          rcases hc with hx | rfl | hrest
          · exact Or.inr ⟨x, List.mem_cons_self _ _, hx⟩
          · exact Or.inl rfl
          · rcases ih c hrest with h1 | ⟨p, hp, hcp⟩
            · exact Or.inl h1
            · exact Or.inr ⟨p, List.mem_cons_of_mem _ hp, hcp⟩

/-- A rendered coordinate is never the empty string. -/
theorem renderQ_ne_nil (q : ℚ) : renderQ q ≠ [] := by
  unfold renderQ intChars
  split_ifs
  · simp
  · exact natChars_ne_nil _

/-- Every character of a rendered coordinate is a minus sign or a digit. -/
theorem renderQ_chars (q : ℚ) :
    ∀ c ∈ renderQ q, c = '-' ∨ (48 ≤ c.toNat ∧ c.toNat ≤ 57) := by
  unfold renderQ intChars
  split_ifs <;> intro c hc
  · rcases List.mem_cons.mp hc with rfl | h2
    · exact Or.inl rfl
    · exact Or.inr (natChars_range _ _ h2)
  · exact Or.inr (natChars_range _ _ hc)

/-- Rendered coordinates contain neither the field nor the line separator. -/
theorem sep_not_mem_renderQ (q : ℚ) : ' ' ∉ renderQ q ∧ '\n' ∉ renderQ q := by
  constructor <;> intro hmem <;> rcases renderQ_chars q _ hmem with h | h
  · exact absurd h (by decide)
  · exact absurd h.1 (by decide)
  · exact absurd h (by decide)
  · exact absurd h.1 (by decide)

/-- Rendering then parsing one coordinate yields its quantization. -/
theorem parseQ_renderQ (q : ℚ) : parseQ (renderQ q) = quantizeQ q := by
  unfold parseQ renderQ quantizeQ
  rw [parseInt_intChars]

/-- Parsing an exported line recovers the quantized record. -/
theorem parseLine_render (r : TrajRecord) :
    parseLine (joinSep ' ' ((recFields r).map renderQ)) = some (quantizeRec r) := by
  unfold parseLine
  rw [splitSep_joinSep ((recFields r).map renderQ) (by simp [recFields]) ?noSp]
  case noSp =>
    intro p hp
    rw [List.mem_map] at hp
    obtain ⟨q, _, rfl⟩ := hp
    exact (sep_not_mem_renderQ q).1
  rw [List.map_map]
  have hcongr : (recFields r).map (parseQ ∘ renderQ) = (recFields r).map quantizeQ := by
    apply List.map_congr_left
    intro a _
    exact parseQ_renderQ a
  rw [hcongr]
  simp [recFields, quantizeRec]

/-- Parsing the exported lines recovers the quantized trajectory. -/
theorem lines_mapM_parse (recs : List TrajRecord) :
    ((recs.map fun r => joinSep ' ' ((recFields r).map renderQ)).mapM parseLine) =
      some (recs.map quantizeRec) := by
  induction recs with
  | nil => rfl
  | cons r rest ih =>
      simp only [List.map_cons, List.mapM_cons, parseLine_render, ih]
      rfl

/-- Importing an exported trajectory succeeds and yields the quantized
records. -/
theorem import_export (recs : List TrajRecord) :
    importTransforms (exportTransforms recs) = some (recs.map quantizeRec) := by
  cases recs with
  | nil => rfl
  | cons r0 rest =>
      unfold exportTransforms importTransforms
      have hline0 : joinSep ' ' ((recFields r0).map renderQ) ≠ [] := by
        apply joinSep_ne_nil
        show renderQ r0.t ≠ []
        exact renderQ_ne_nil r0.t
      rw [if_neg (by
        simp only [List.map_cons]
        exact joinSep_ne_nil _ hline0)]
      rw [splitSep_joinSep _ (by simp) ?hnl]
      case hnl =>
        intro p hp
        rw [List.mem_map] at hp
        obtain ⟨r, _, rfl⟩ := hp
        intro hmem
        rcases mem_joinSep _ _ hmem with h1 | ⟨f, hf, hcf⟩
        · exact absurd h1 (by decide)
        · rw [List.mem_map] at hf
          obtain ⟨q, _, rfl⟩ := hf
          exact (sep_not_mem_renderQ q).2 hcf
      exact lines_mapM_parse (r0 :: rest)

/-- Quantizing to nine decimal places moves a value by at most `10⁻⁹`. -/
theorem quantizeQ_close (q : ℚ) : |quantizeQ q - q| ≤ 1 / 1000000000 := by
  unfold quantizeQ
  have h1 : ((⌊q * 1000000000 + 1 / 2⌋ : ℤ) : ℚ) ≤ q * 1000000000 + 1 / 2 :=
    Int.floor_le _
  have h2 : q * 1000000000 + 1 / 2 - 1 < ((⌊q * 1000000000 + 1 / 2⌋ : ℤ) : ℚ) :=
    Int.sub_one_lt_floor _
  rw [abs_le]
  constructor <;> linarith

/-- C9: exporting a trajectory to the plain-text format and importing the
result succeeds and yields the original records to within `10⁻⁹` in every
component (exactly their nine-decimal quantizations). -/
theorem export_import_inverse (recs : List TrajRecord) :
    importTransforms (exportTransforms recs) = some (recs.map quantizeRec) ∧
    ∀ r ∈ recs, closeTo (1 / 1000000000) (quantizeRec r) r := by
  refine ⟨import_export recs, ?_⟩
  intro r _
  unfold closeTo quantizeRec
  exact ⟨quantizeQ_close _, quantizeQ_close _, quantizeQ_close _, quantizeQ_close _,
    quantizeQ_close _, quantizeQ_close _, quantizeQ_close _⟩

theorem export_import_inverse_witness :
    importTransforms (exportTransforms [⟨0, 0, 0, 0, 0, 0, 0⟩]) =
      some ([(⟨0, 0, 0, 0, 0, 0, 0⟩ : TrajRecord)].map quantizeRec) ∧
    ∀ r ∈ [(⟨0, 0, 0, 0, 0, 0, 0⟩ : TrajRecord)], closeTo (1 / 1000000000) (quantizeRec r) r :=
  export_import_inverse [⟨0, 0, 0, 0, 0, 0, 0⟩]

/-- C7: invoking `AddFrame` / `process_frame` before `SetSensorCalibration`
is a hard error — the call returns the `CalibrationMissing` error instead of
a processed frame, and a successful result is only possible when the
calibration has been provided. -/
theorem process_frame_requires_calibration (cfg : KeypointConfig)
    (st : SlamEngineState) (frame : List (List PointScores)) (time : ℚ) :
    (st.calibProvided = false →
      processFrame cfg st frame time = Except.error SlamError.calibrationMissing) ∧
    (∀ out : SlamEngineState × Pose6,
      processFrame cfg st frame time = Except.ok out → st.calibProvided = true) := by
  constructor
  · intro h
    simp [processFrame, h]
  · intro out hout
    by_cases hc : st.calibProvided = true
    · exact hc
    · simp [processFrame, hc] at hout

theorem process_frame_requires_calibration_witness :
    (initialEngineState.calibProvided = false →
      processFrame ⟨1, 1, 1, 1, 1, 1, 1⟩ initialEngineState [] 0 =
        Except.error SlamError.calibrationMissing) ∧
    (∀ out : SlamEngineState × Pose6,
      processFrame ⟨1, 1, 1, 1, 1, 1, 1⟩ initialEngineState [] 0 = Except.ok out →
        initialEngineState.calibProvided = true) :=
  process_frame_requires_calibration ⟨1, 1, 1, 1, 1, 1, 1⟩ initialEngineState [] 0

/-- C10: `LoadTransforms` leaves the SLAM algorithm state unchanged — the
three rolling-grid local maps, the current and previous keypoint clouds,
`Tworld`, `Trelative`, the trajectory history and the Kalman filter state
are identical before and after the call; only the displayed trajectory
polydata gains the loaded transforms. -/
theorem load_transforms_preserves_state (st : SlamEngineState) (file : List Char) :
    (loadTransforms st file).calibProvided = st.calibProvided ∧
    (loadTransforms st file).laserIdMapping = st.laserIdMapping ∧
    (loadTransforms st file).nLasers = st.nLasers ∧
    (loadTransforms st file).edgesPointsLocalMap = st.edgesPointsLocalMap ∧
    (loadTransforms st file).planarPointsLocalMap = st.planarPointsLocalMap ∧
    (loadTransforms st file).blobsPointsLocalMap = st.blobsPointsLocalMap ∧
    (loadTransforms st file).currentEdgesPoints = st.currentEdgesPoints ∧
    (loadTransforms st file).currentPlanarsPoints = st.currentPlanarsPoints ∧
    (loadTransforms st file).currentBlobsPoints = st.currentBlobsPoints ∧
    (loadTransforms st file).previousEdgesPoints = st.previousEdgesPoints ∧
    (loadTransforms st file).previousPlanarsPoints = st.previousPlanarsPoints ∧
    (loadTransforms st file).previousBlobsPoints = st.previousBlobsPoints ∧
    (loadTransforms st file).trelative = st.trelative ∧
    (loadTransforms st file).tworld = st.tworld ∧
    (loadTransforms st file).previousTworld = st.previousTworld ∧
    (loadTransforms st file).tworldList = st.tworldList ∧
    (loadTransforms st file).kalman = st.kalman ∧
    (loadTransforms st file).nbrFrameProcessed = st.nbrFrameProcessed ∧
    ∃ added : List TrajRecord,
      (loadTransforms st file).trajectory = st.trajectory ++ added := by
  unfold loadTransforms
  cases h : importTransforms file with
  | none =>
      exact ⟨rfl, rfl, rfl, rfl, rfl, rfl, rfl, rfl, rfl, rfl, rfl, rfl, rfl, rfl, rfl,
        rfl, rfl, rfl, ⟨[], by simp⟩⟩
  | some recs =>
      exact ⟨rfl, rfl, rfl, rfl, rfl, rfl, rfl, rfl, rfl, rfl, rfl, rfl, rfl, rfl, rfl,
        rfl, rfl, rfl, ⟨recs, rfl⟩⟩
